import Mathlib

/-!
Verification of the Bakefile core (vartypes.py and plugins/vs2010.py)
against its natural-language specification.

The Python sources are shallowly embedded as executable Lean definitions:
pure functions become Lean functions, fallible code returns `Option`,
Python `set` objects are represented as duplicate-free lists (membership
and cardinality coincide with the Python set; iteration order of a
CPython set is hash-table order and is not modelled).
-/

namespace Bakefile

/-! ## Expressions (collaborator model)

The `bkl.expr` module is not part of the sources under verification; the
constructors below model the expression shapes that `vartypes.py` and
`vs2010.py` manipulate: literal expressions, list expressions and path
expressions (a sequence of components plus an anchor), plus an opaque
reference constructor standing for every other expression kind.
-/

inductive Expr where
  | literal (value : String)
  | listE (items : List Expr)
  | pathE (components : List Expr) (anchor : String)
  | ref (name : String)

/-- Modelled from the spec: the fixed, closed set of path anchor kinds
(`bkl.expr.ANCHORS`); `ANCHOR_BUILDDIR` appears in `vs2010.py`, the
others are the remaining anchors of the anchor set. -/
def ANCHOR_SRCDIR : String := "@srcdir"

def ANCHOR_TOP_SRCDIR : String := "@top_srcdir"

def ANCHOR_BUILDDIR : String := "@builddir"

/-- Modelled from the spec: the closed set of valid path anchors
(`bkl.expr.ANCHORS`). -/
def ANCHORS : List String := [ANCHOR_SRCDIR, ANCHOR_TOP_SRCDIR, ANCHOR_BUILDDIR]

/-- Modelled from the spec: `bkl.expr.split(e, "/")` splits an expression
into the list of its "/"-separated components; a literal splits into
literal components (an empty literal has no components), any other
expression is a single component. Only the literal case is exercised by
the claims. -/
def exprSplit : Expr → List Expr
  | .literal s => if s = "" then [] else (s.splitOn "/").map Expr.literal
  | e => [e]

/-! ## vartypes.py -/

/-- Boolean value of "true" (`vartypes.TRUE`). -/
def TRUE : String := "true"

/-- Boolean value of "false" (`vartypes.FALSE`). -/
def FALSE : String := "false"

/-- The type hierarchy of `vartypes.py`: `AnyType`, `BoolType`, `IdType`,
`PathType`, `EnumType(allowed_values)` and `ListType(item_type)`. -/
inductive VType where
  | any
  | bool
  | id
  | path
  | enum (allowed_values : List String)
  | listT (item_type : VType)

/-- `Type.name` / `ListType.__init__`: human-readable name of the type. -/
def VType.typeName : VType → String
  | .any => "any"
  | .bool => "bool"
  | .id => "id"
  | .path => "path"
  | .enum _ => "enum"
  | .listT t => "list of " ++ t.typeName

/-- `bkl.error.TypeError(type, expr, msg)`: carries the offending type
name, the value and an optional human-readable reason. -/
structure TypeErr where
  typeName : String
  value : Expr
  msg : Option String

/-- Python `repr` of a list of strings, as produced by
`"%s" % [str(x) for x in values]` in `EnumType.validate`. -/
def pyStrListRepr (l : List String) : String :=
  "[" ++ String.intercalate ", " (l.map (fun x => "\x27" ++ x ++ "\x27")) ++ "]"

/-- `BoolType.allowed_values`. -/
def boolAllowedValues : List String := [TRUE, FALSE]

/-- `validate` for every type of `vartypes.py`; `none` means validation
succeeded, `some err` means `bkl.error.TypeError(err)` was raised.
`ListType.validate` validates element-wise and raises the first
element's error. -/
def validate : VType → Expr → Option TypeErr
  | .any, _ => none
  | .bool, e =>
    match e with
    | .literal v => if v ∈ boolAllowedValues then none else some ⟨"bool", e, none⟩
    | _ => some ⟨"bool", e, none⟩
  | .id, e =>
    match e with
    | .literal _ => none
    | _ => some ⟨"id", e, none⟩
  | .path, e =>
    match e with
    | .pathE _ anchor =>
      if anchor ∈ ANCHORS then none
      else some ⟨"path", e, some ("\x22" ++ anchor ++ "\x22 is not a valid path anchor")⟩
    | _ => some ⟨"path", e, none⟩
  | .enum allowed, e =>
    match e with
    | .literal v =>
      if v ∈ allowed then none
      else some ⟨"enum", e, some ("must be one of " ++ pyStrListRepr allowed)⟩
    | _ => some ⟨"enum", e, none⟩
  | .listT item, e =>
    match e with
    | .listE items => items.findSome? (fun i => validate item i)
    | _ => some ⟨(VType.listT item).typeName, e, none⟩

/-- `normalize` for every type of `vartypes.py`. `AnyType`, `BoolType`,
`IdType` and `EnumType` inherit the default (`return e`); `PathType`
splits non-path expressions into components and builds a `PathExpr`;
`ListType` wraps a non-list expression into a one-element list and
normalizes elements recursively. -/
def normalize : VType → Expr → Expr
  | .path, e =>
    match e with
    | .pathE c a => .pathE c a
    | _ =>
      match exprSplit e with
      | [] => e
      | first :: rest =>
        match first with
        | .literal v =>
          if v ≠ "" ∧ v.front = '@' then .pathE rest v
          else .pathE (first :: rest) ANCHOR_SRCDIR
        | _ => .pathE (first :: rest) ANCHOR_SRCDIR
  | .listT item, e =>
    match e with
    | .listE items => .listE (items.map (normalize item))
    | _ => .listE [normalize item e]
  | _, e => e

/-- Whether an expression is a `ListExpr` (`isinstance(e, expr.ListExpr)`). -/
def Expr.isListE : Expr → Bool
  | .listE _ => true
  | _ => false

/-! ## vs2010.py: XML output tree and serializer

Attribute and child values (`Node.attrs` values and scalar children) are
the closed set of shapes `XmlFormatter._format_value` distinguishes:
`bkl.expr.Expr` (rendered by the external expression formatter, modelled
as the pre-rendered string it produces), Python booleans, Python lists,
and everything else via `str()`. -/

inductive XVal where
  | str (s : String)
  | boolV (b : Bool)
  | listV (items : List XVal)
  | exprV (formatted : String)

/-- One character of `xml.sax.saxutils.escape`. The source performs
`replace("&")`, then `replace("<")`, then `replace(">")`; since `&` is
replaced first and no replacement text contains `<` or `>`, the
sequential replaces act independently on each input character, so the
escape is character-wise. -/
def xmlEscapeChar (c : Char) : String :=
  if c = '&' then "&amp;"
  else if c = '<' then "&lt;"
  else if c = '>' then "&gt;"
  else String.singleton c

/-- `xml.sax.saxutils.escape`: escape `&`, `<` and `>`. -/
def xmlEscape (s : String) : String :=
  s.data.foldl (fun acc c => acc ++ xmlEscapeChar c) ""

/-- One character of the entity pass of `xml.sax.saxutils.quoteattr`:
the escape above plus the newline, carriage-return and tab entities
(character-wise for the same reason). -/
def xmlQuoteattrChar (c : Char) : String :=
  if c = '\n' then "&#10;"
  else if c = '\r' then "&#13;"
  else if c = '\t' then "&#9;"
  else xmlEscapeChar c

/-- `xml.sax.saxutils.quoteattr`: escape plus newline/CR/tab entities,
then wrap in double quotes (single quotes when the value contains a
double quote but no single quote; `&quot;` when it contains both). -/
def xmlQuoteattr (s : String) : String :=
  let d := s.data.foldl (fun acc c => acc ++ xmlQuoteattrChar c) ""
  if d.data.contains '\x22' then
    if d.data.contains '\x27' then
      "\x22" ++ String.mk (d.data.flatMap
        (fun c => if c = '\x22' then "&quot;".data else [c])) ++ "\x22"
    else "\x27" ++ d ++ "\x27"
  else "\x22" ++ d ++ "\x22"

mutual
/-- `vs2010.Node`: element name, optional text, ordered attributes,
ordered children. -/
inductive XNode where
  | mk (name : String) (text : Option String)
      (attrs : List (String × XVal)) (children : List XEntry)
/-- One entry of `Node.children`: either a child `Node` (stored in the
source as the pair `(node.name, node)`) or a scalar leaf `(tag, value)`. -/
inductive XEntry where
  | node (n : XNode)
  | value (tag : String) (v : XVal)
end

def XNode.name : XNode → String
  | .mk n _ _ _ => n

def XNode.text : XNode → Option String
  | .mk _ t _ _ => t

def XNode.attrs : XNode → List (String × XVal)
  | .mk _ _ a _ => a

def XNode.children : XNode → List XEntry
  | .mk _ _ _ c => c

mutual
/-- `XmlFormatter._format_value`. -/
def formatValue : XVal → String
  | .str s => s
  | .boolV b => if b then "true" else "false"
  | .listV items => String.intercalate ";" (formatValues items)
  | .exprV f => f

def formatValues : List XVal → List String
  | [] => []
  | v :: rest => formatValue v :: formatValues rest
end

/-- Rendering of `Node.attrs` inside `_format_node`:
`' %s=%s' % (key, quoteattr(value))` per attribute, in insertion order. -/
def formatAttrs : List (String × XVal) → String
  | [] => ""
  | (k, v) :: rest => " " ++ k ++ "=" ++ xmlQuoteattr (formatValue v) ++ formatAttrs rest

/-- Truthiness of `n.text` (`None` and the empty string are falsy). -/
def textTruthy : Option String → Bool
  | none => false
  | some t => t ≠ ""

mutual
/-- `XmlFormatter._format_node`. -/
def formatNode : XNode → String → String
  | .mk name text attrs children, indent =>
    let s := indent ++ "<" ++ name ++ formatAttrs attrs
    if children.isEmpty = false then
      s ++ ">\n" ++ formatEntries children (indent ++ "  ")
        ++ indent ++ "</" ++ name ++ ">\n"
    else if textTruthy text then
      s ++ ">" ++ text.getD "" ++ "</" ++ name ++ ">\n"
    else
      s ++ " />\n"

/-- The child loop of `_format_node`, one entry at a time. -/
def formatEntries : List XEntry → String → String
  | [], _ => ""
  | e :: rest, ind => formatEntry e ind ++ formatEntries rest ind

/-- One iteration of the child loop of `_format_node`: a `Node` child is
rendered recursively; a scalar child is rendered as
`<tag>escaped-value</tag>` and omitted entirely when the escaped value
is empty. -/
def formatEntry : XEntry → String → String
  | .node n, ind => formatNode n ind
  | .value tag v, ind =>
    let fv := xmlEscape (formatValue v)
    if fv ≠ "" then ind ++ "<" ++ tag ++ ">" ++ fv ++ "</" ++ tag ++ ">\n"
    else ""
end

/-- `XML_HEADER` of vs2010.py. -/
def XML_HEADER : String :=
  "<?xml version=\x221.0\x22 encoding=\x22utf-8\x22?>\n<!-- This file was generated by Bakefile (http://bakefile.org). Do not modify, all changes will be overwritten! -->\n"

/-- `XmlFormatter.format`. -/
def xmlFormat (node : XNode) : String :=
  XML_HEADER ++ formatNode node ""

/-! ## vs2010.py: solution model -/

/-- One entry of `VS2010Solution.projects`: the tuple
`(prj.name, prj.guid, prj.projectfile, prj.dependencies)` stored by
`add_project`. GUIDs are modelled as strings; the project file
expression is modelled as the string the solution formatter renders it
to. -/
structure PrjInfo where
  name : String
  guid : String
  projectfile : String
  deps : List String
deriving DecidableEq, Repr

/-- Modelled from the spec: `GUID(namespace, solution, name)` of
`vsbase.py` (not under src/) is a deterministic value derived from a
namespace and the owning names. -/
def GUID (ns a b : String) : String := ns ++ "/" ++ a ++ "/" ++ b

/-- Modelled from the spec: the `NAMESPACE_SLN_GROUP` GUID namespace of
`vsbase.py` (not under src/). -/
def NAMESPACE_SLN_GROUP : String := "ns-sln-group"

/-- Modelled from the spec: the `NAMESPACE_INTERNAL` GUID namespace of
`vsbase.py` (not under src/). -/
def NAMESPACE_INTERNAL : String := "ns-internal"

/-- `VS2010Solution`: name, GUID, the ordered project list and the
ordered nested solutions. The `parent_solution` back-reference is not
stored: a solution's parents are passed explicitly as the chain of
ancestors (nearest first), exactly the chain the Python back-references
walk; `guids_map` is derivable from `projects` since `add_project`
inserts into both. -/
inductive Solution where
  | mk (name : String) (guid : String)
      (projects : List PrjInfo) (subsolutions : List Solution)

def Solution.name : Solution → String
  | .mk n _ _ _ => n

def Solution.guid : Solution → String
  | .mk _ g _ _ => g

def Solution.projects : Solution → List PrjInfo
  | .mk _ _ p _ => p

def Solution.subsolutions : Solution → List Solution
  | .mk _ _ _ s => s

/-- The `while top.parent_solution: top = top.parent_solution` walk of
`additional_deps` / `_get_target_guid`: the last element of the parent
chain (or the solution itself when it has no parent). -/
def findTop : Solution → List Solution → Solution
  | s, [] => s
  | _, p :: rest => findTop p rest

/-- Well-formedness of an explicit parent chain: each listed parent
actually owns the previous solution as a subsolution. An empty chain
means the solution has no parent (`top is self` in the source). -/
def ParentChain : Solution → List Solution → Prop
  | _, [] => True
  | s, p :: rest => s ∈ p.subsolutions ∧ ParentChain p rest

mutual
/-- `VS2010Solution.all_projects`: own projects first, then each
subsolution's recursively, in order. -/
def allProjects : Solution → List PrjInfo
  | .mk _ _ prjs subs => prjs ++ allProjectsList subs

def allProjectsList : List Solution → List PrjInfo
  | [] => []
  | s :: rest => allProjects s ++ allProjectsList rest
end

mutual
/-- `VS2010Solution._get_project_info`: first matching own project,
then depth-first over subsolutions. -/
def getProjectInfo : Solution → String → Option PrjInfo
  | .mk _ _ prjs subs, id =>
    match prjs.find? (fun p => p.name = id) with
    | some p => some p
    | none => getProjectInfoList subs id

def getProjectInfoList : List Solution → String → Option PrjInfo
  | [], _ => none
  | s :: rest, id =>
    match getProjectInfo s id with
    | some p => some p
    | none => getProjectInfoList rest id
end

/-- `guids_map` lookup: the dictionary maps each direct project's name
to its GUID; on duplicate names the last `add_project` wins. -/
def guidsMapLookup (s : Solution) (id : String) : Option String :=
  (s.projects.reverse.find? (fun p => p.name = id)).map PrjInfo.guid

mutual
/-- `VS2010Solution._find_target_guid_recursively`. A recursive result
is accepted only when truthy (`if guid:`), i.e. a non-empty string. -/
def findTargetGuidRec : Solution → String → Option String
  | .mk n g prjs subs, id =>
    match guidsMapLookup (.mk n g prjs subs) id with
    | some g => some g
    | none => findTargetGuidRecList subs id

def findTargetGuidRecList : List Solution → String → Option String
  | [], _ => none
  | s :: rest, id =>
    match findTargetGuidRec s id with
    | some g => if g ≠ "" then some g else findTargetGuidRecList rest id
    | none => findTargetGuidRecList rest id
end

/-- `VS2010Solution._get_target_guid`. The trailing `assert guid` makes
a missing (or falsy) GUID a crash, modelled as `none`. -/
def getTargetGuid (s : Solution) (parents : List Solution) (id : String) : Option String :=
  match guidsMapLookup s id with
  | some g => some g
  | none =>
    match findTargetGuidRec (findTop s parents) id with
    | some g => if g ≠ "" then some g else none
    | none => none

/-! Python `set` objects of `additional_deps` are represented as
duplicate-free lists: `setInsert` is `set.add`, `setUnion` is
`set.update`. Membership and cardinality agree with the Python set; the
list order is a representation artifact (CPython iterates a set in hash
order, which is not modelled). -/

def setInsert (s : List String) (x : String) : List String :=
  if x ∈ s then s else s ++ [x]

def setUnion (s : List String) (l : List String) : List String :=
  l.foldl setInsert s

def setOfList (l : List String) : List String :=
  setUnion [] l

/-- The body of the inner `for todo_item in todo:` loop of
`additional_deps`: add the item to `included`, look its project info up
from the top solution (a failed lookup is the `prj[3]`-on-`None` crash,
modelled as `none`), fold its dependencies into `todo_new` and append
the project to `additional`. -/
def processPass (top : Solution) :
    List String → List String → List String → List PrjInfo →
    Option (List String × List String × List PrjInfo)
  | [], included, todo_new, additional => some (included, todo_new, additional)
  | item :: rest, included, todo_new, additional =>
    let included' := setInsert included item
    match getProjectInfo top item with
    | none => none
    | some prj =>
      processPass top rest included' (setUnion todo_new prj.deps) (additional ++ [prj])

/-- The `while prev_count != len(included)` fixpoint loop of
`additional_deps`. The Python loop has no fuel; the fuel argument is a
modelling device for the unbounded loop, and the theorems show a
sufficient fuel exists after which the result is stable (the loop
terminates). -/
def closureLoop (top : Solution) :
    Nat → Nat → List String → List String → List PrjInfo → Option (List PrjInfo)
  | 0, _, _, _, _ => none
  | fuel + 1, prev_count, included, todo, additional =>
    if prev_count = included.length then some additional
    else
      let todo1 := todo.filter (fun x => x ∉ included)
      match processPass top todo1 included [] additional with
      | none => none
      | some (included', todo_new, additional') =>
        closureLoop top fuel included.length included' (setUnion todo1 todo_new) additional'

/-- `VS2010Solution.additional_deps` with explicit fuel for the
fixpoint loop. -/
def additionalDepsFuel (fuel : Nat) (s : Solution) (parents : List Solution) :
    Option (List PrjInfo) :=
  if parents.isEmpty then some []
  else
    let top := findTop s parents
    let included := setOfList ((allProjects s).map PrjInfo.name)
    let todo := (allProjects s).foldl (fun acc p => setUnion acc p.deps) []
    closureLoop top fuel 0 included todo []

/-- `VS2010Solution.additional_deps`: the fuel is one pass per project
of the whole tree plus the final no-progress pass and the exit check,
which the theorems show is sufficient. -/
def additional_deps (s : Solution) (parents : List Solution) : Option (List PrjInfo) :=
  additionalDepsFuel ((allProjects (findTop s parents)).length + 2) s parents

/-! ## vs2010.py: solution commit -/

/-- One grouping considered by `VS2010Solution.commit`: either a nested
subsolution (with its parent's GUID) or the synthetic "Additional
Dependencies" grouping (which has `parent_solution = None`). `subGuids`
are the GUIDs of the grouping's subsolutions. -/
structure Folder where
  name : String
  guid : String
  projects : List PrjInfo
  subGuids : List String
  parentGuid : Option String
deriving DecidableEq, Repr

/-- `sln.omit_from_tree`: `sln.parent_solution and
(len(sln.projects) + len(sln.subsolutions)) <= 1`. -/
def folderOmit (f : Folder) : Bool :=
  f.parentGuid.isSome && decide (f.projects.length + f.subGuids.length ≤ 1)

/-- The folder record of one nested solution, as `commit` sees it. -/
def folderOfSolution (c : Solution) (parentGuid : String) : Folder :=
  ⟨c.name, c.guid, c.projects, c.subsolutions.map Solution.guid, some parentGuid⟩

mutual
/-- `VS2010Solution.all_subsolutions` as folder records: each
subsolution is yielded, then its own subsolutions recursively; the
parent GUID is the attaching solution's GUID (`add_subsolution` sets
`parent_solution` to the attacher). -/
def slnFoldersOf : Solution → List Folder
  | .mk _ g _ subs => slnFoldersList subs g

def slnFoldersList : List Solution → String → List Folder
  | [], _ => []
  | c :: rest, pg =>
    (folderOfSolution c pg :: slnFoldersOf c) ++ slnFoldersList rest pg
end

/-- The synthetic `AdditionalDepsFolder` built in `commit` when
`additional_deps` is non-empty: named "Additional Dependencies", GUID
from `NAMESPACE_INTERNAL`, holding the additional projects, no
subsolutions and no parent. -/
def extrasFolder (s : Solution) (adtl : List PrjInfo) : Folder :=
  ⟨"Additional Dependencies",
   GUID NAMESPACE_INTERNAL s.name "Additional Dependencies",
   adtl, [], none⟩

/-- The lines `commit` writes, one constructor per `self.write` call
shape (template arguments preserved; constant templates carry no
arguments). -/
inductive SlnLine where
  | bom
  | blank
  | headerFormatVersion (v : String)
  | headerHumanVersion (v : String)
  | projectEntry (name projectfile guid : String)
  | depsBegin
  | depEntry (guid : String)
  | depsEnd
  | endProject
  | folderEntry (name guid : String)
  | globalBegin
  | slnCfgsBegin
  | slnCfg (cfg : String)
  | endGlobalSection
  | prjCfgsBegin
  | prjCfgActive (guid cfg : String)
  | prjCfgBuild (guid cfg : String)
  | slnPropsBegin
  | hideSolutionNode
  | nestedBegin
  | nestedEntry (childGuid parentGuid : String)
  | endGlobal
deriving DecidableEq, Repr

/-- Result of `VS2010Solution.commit`: `crash` models an uncaught
exception (failed GUID lookup assertion or `additional_deps` crash),
`skipped` the early `if not guids: return` (no artifact is produced
because the buffered `OutputFile` is never committed), and `written`
the committed line sequence. -/
inductive CommitResult where
  | crash
  | skipped
  | written (lines : List SlnLine)
deriving DecidableEq, Repr

/-- One iteration of the project loop of `commit`: the project entry
line, the `ProjectDependencies` section when the project has
dependencies (each dependency's GUID resolved by `_get_target_guid`,
whose failure crashes), and `EndProject`. -/
def writeProjectEntry (s : Solution) (parents : List Solution) (p : PrjInfo) :
    Option (List SlnLine) :=
  let head := SlnLine.projectEntry p.name p.projectfile p.guid
  if p.deps.isEmpty then some [head, .endProject]
  else
    match p.deps.mapM (getTargetGuid s parents) with
    | none => none
    | some gs => some ([head, .depsBegin] ++ gs.map SlnLine.depEntry ++ [.depsEnd, .endProject])

/-- The project loop of `commit` over
`list(self.all_projects()) + additional_deps`. -/
def writeProjects (s : Solution) (parents : List Solution) :
    List PrjInfo → Option (List SlnLine)
  | [] => some []
  | p :: rest =>
    match writeProjectEntry s parents p with
    | none => none
    | some ls =>
      match writeProjects s parents rest with
      | none => none
      | some rest' => some (ls ++ rest')

/-- `write_header`: BOM, a blank line, the format-version line and the
Visual Studio version line (VS2010 values). -/
def headerLines : List SlnLine :=
  [.bom, .blank, .headerFormatVersion "11.00", .headerHumanVersion "2010"]

/-- The fixed global-settings section of `commit`, parameterized by the
collected project GUIDs. -/
def globalLines (guids : List String) : List SlnLine :=
  [.globalBegin, .slnCfgsBegin, .slnCfg "Debug|Win32", .slnCfg "Release|Win32",
   .endGlobalSection, .prjCfgsBegin]
  ++ guids.flatMap (fun g =>
       [.prjCfgActive g "Debug", .prjCfgBuild g "Debug",
        .prjCfgActive g "Release", .prjCfgBuild g "Release"])
  ++ [.endGlobalSection, .slnPropsBegin, .hideSolutionNode, .endGlobalSection]

/-- The folder entries of `commit`: each non-omitted folder, in order.
(`continue` skips omitted folders.) -/
def folderLines (folders : List Folder) : List SlnLine :=
  (folders.filter (fun f => !folderOmit f)).flatMap
    (fun f => [.folderEntry f.name f.guid, .endProject])

/-- The `NestedProjects` section of `commit`: for every folder, its
projects attach to the folder's GUID (or, when the folder is omitted
from the tree, to its parent's GUID), and its subsolutions attach to
the folder's GUID. The `getD` default is unreachable: an omitted folder
always has a parent. -/
def nestingLines (folders : List Folder) : List SlnLine :=
  if folders.isEmpty then []
  else
    [.nestedBegin]
    ++ folders.flatMap (fun f =>
         f.projects.map (fun p =>
           SlnLine.nestedEntry p.guid
             (if folderOmit f then f.parentGuid.getD "" else f.guid))
         ++ f.subGuids.map (fun g => SlnLine.nestedEntry g f.guid))
    ++ [.endGlobalSection]

/-- The `all_folders` list of `commit`: every nested subsolution, plus
the synthetic "Additional Dependencies" folder when `additional_deps`
is non-empty. -/
def commitFolders (s : Solution) (adtl : List PrjInfo) : List Folder :=
  slnFoldersOf s ++ (if adtl.isEmpty then [] else [extrasFolder s adtl])

/-- `VS2010Solution.commit`. -/
def commit (s : Solution) (parents : List Solution) : CommitResult :=
  match additional_deps s parents with
  | none => .crash
  | some adtl =>
    let entries := allProjects s ++ adtl
    match writeProjects s parents entries with
    | none => .crash
    | some prjLines =>
      let guids := entries.map PrjInfo.guid
      if guids.isEmpty then .skipped
      else
        let folders := commitFolders s adtl
        .written (headerLines ++ prjLines ++ folderLines folders
                  ++ globalLines guids ++ nestingLines folders ++ [.endGlobal])

/-! ## vs2010.py: per-module generation gate (`gen_for_module`) -/

/-- Outcome of validating one generated project in
`VS201xToolsetBase.gen_for_module`. -/
inductive GenOutcome where
  | fatalNameMismatch
  | fatalVersionTooNew
  | addedWithWarning
  | added
deriving DecidableEq, Repr

/-- The validation gate of `gen_for_module`: a name mismatch raises a
fatal `Error`; a version missing from `proj_versions` raises a fatal
`Error` when newer than `proj_versions[-1]` and otherwise emits a
warning and still adds the project; a supported version is added
silently. (`proj_versions` is a sorted non-empty list for every real
toolset; `getLastD` models the `[-1]` index.) -/
def checkGeneratedProject (proj_versions : List Nat)
    (prjName tName : String) (prjVersion : Nat) : GenOutcome :=
  if prjName ≠ tName then .fatalNameMismatch
  else if prjVersion ∉ proj_versions then
    if prjVersion > proj_versions.getLastD 0 then .fatalVersionTooNew
    else .addedWithWarning
  else .added

/-- The spec-side dependency graph D: there is an edge from name `a` to
name `b` when some project of the whole tree named `a` declares `b`
among its `dependency_ids`. -/
def depEdge (top : Solution) (a b : String) : Prop :=
  ∃ p ∈ allProjects top, p.name = a ∧ b ∈ p.deps

/-- The spec-side transitive closure `transitive_closure(D, P)`: the
names reachable from the starting set `P` along `depEdge`. -/
inductive ReachFrom (top : Solution) (P : List String) : String → Prop
  | base (x : String) : x ∈ P → ReachFrom top P x
  | step (a b : String) : ReachFrom top P a → depEdge top a b → ReachFrom top P b

/-- Every dependency declared anywhere in the tree names a project of
the tree (the spec's internal-consistency precondition for the
closure). -/
def depsResolvable (top : Solution) : Prop :=
  ∀ p ∈ allProjects top, ∀ d ∈ p.deps, ∃ q ∈ allProjects top, q.name = d

/-- Project names are unique across the whole tree (project identity is
by name). -/
def namesNodup (top : Solution) : Prop :=
  ((allProjects top).map PrjInfo.name).Nodup

/-- The lines of a committed solution (empty when nothing was written). -/
def commitLines : CommitResult → List SlnLine
  | .written lines => lines
  | _ => []

/-- Invariant of the `additional_deps` fixpoint loop, for start set `P`:
`included` is duplicate-free and reachable, contains `P`, every
dependency of an included name is included or pending, pending names
are reachable, `included` extends the initial set exactly by the names
of `additional` in order, every accumulated project is the top-tree
lookup of its name, and when the loop's exit test fires nothing is
pending. -/
structure LoopInv (top : Solution) (P : List String)
    (prev_count : Nat) (included todo : List String)
    (additional : List PrjInfo) : Prop where
  nodupI : included.Nodup
  nodupT : todo.Nodup
  reachI : ∀ x ∈ included, ReachFrom top P x
  subP : ∀ x ∈ P, x ∈ included
  reachT : ∀ x ∈ todo, ReachFrom top P x
  frontier : ∀ a ∈ included, ∀ b, depEdge top a b → b ∈ included ∨ b ∈ todo
  decomp : included = setOfList P ++ additional.map PrjInfo.name
  lookupA : ∀ p ∈ additional, getProjectInfo top p.name = some p
  exitT : prev_count = included.length → ∀ x ∈ todo, x ∈ included

/-! ## Concrete example tree

A top-level solution `exT` owning project `Y` and the nested solution
`exS`; `exS` owns project `X` (which depends on `Y`) and the nested
solution `exG`; `exG` owns no project and one nested solution `exK`
with two projects. Used to instantiate the theorems at concrete
inputs. -/

def exY : PrjInfo := ⟨"Y", "GY", "Y.vcxproj", []⟩

def exX : PrjInfo := ⟨"X", "GX", "X.vcxproj", ["Y"]⟩

def exZ : PrjInfo := ⟨"Z", "GZ", "Z.vcxproj", []⟩

def exW : PrjInfo := ⟨"W", "GW", "W.vcxproj", []⟩

def exK : Solution := .mk "K" "GK" [exZ, exW] []

def exG : Solution := .mk "G" "GG" [] [exK]

def exS : Solution := .mk "S" "GS" [exX] [exG]

def exT : Solution := .mk "T" "GT" [exY] [exS]

/-- An empty solution (a module with zero targets). -/
def exEmpty : Solution := .mk "E" "GE" [] []

/-! # Theorems -/

/-! ## Type system (vartypes.py) -/

/-- A value that validates successfully is left unchanged by another
`normalize` pass: `normalize` only reshapes values that are not yet of
the type's canonical shape. -/
theorem validate_none_normalize_eq :
    ∀ (t : VType) (e : Expr), validate t e = none → normalize t e = e
  | .any, _, _ => rfl
  | .bool, _, _ => rfl
  | .id, _, _ => rfl
  | .enum _, _, _ => rfl
  | .path, e, h => by
    cases e with
    | pathE c a => rfl
    | literal v => exact absurd h (by simp [validate])
    | listE items => exact absurd h (by simp [validate])
    | ref n => exact absurd h (by simp [validate])
  | .listT item, e, h => by
    cases e with
    | listE items =>
      have hall : ∀ i ∈ items, validate item i = none := by
        simpa [validate, List.findSome?_eq_none_iff] using h
      have hmap : ∀ (l : List Expr), (∀ i ∈ l, validate item i = none) →
          l.map (normalize item) = l := by
        intro l
        induction l with
        | nil => intro _; rfl
        | cons a as ih =>
          intro hl
          have ha := validate_none_normalize_eq item a (hl a (by simp))
          simp only [List.map_cons, ha]
          rw [ih (fun i hi => hl i (by simp [hi]))]
      simp [normalize, hmap items hall]
    | literal v => exact absurd h (by simp [validate])
    | pathE c a => exact absurd h (by simp [validate])
    | ref n => exact absurd h (by simp [validate])

/-- C5: for every supported type T (any, bool, id, path, enum,
list-of-T) and every expression v, if `T.validate(T.normalize(v))`
succeeds then normalizing the already-normalized value again and
validating the result also succeeds — normalization reaches a fixpoint
after one pass. -/
theorem C5_normalize_fixpoint (t : VType) (v : Expr)
    (h : validate t (normalize t v) = none) :
    validate t (normalize t (normalize t v)) = none := by
  rw [validate_none_normalize_eq t (normalize t v) h]
  exact h

/-- Witness for C5 at T = list of bool, v = the literal "true". -/
theorem C5_normalize_fixpoint_witness :
    validate (VType.listT .bool) (normalize (VType.listT .bool) (Expr.literal "true")) = none
    ∧ validate (VType.listT .bool)
        (normalize (VType.listT .bool)
          (normalize (VType.listT .bool) (Expr.literal "true"))) = none :=
  ⟨rfl, C5_normalize_fixpoint (VType.listT .bool) (Expr.literal "true") rfl⟩

/-- C6: for every enum type with allowed set A and every literal
expression, `validate` succeeds exactly when the literal's value is in
A, and any other literal is rejected with a `TypeError` whose message
lists the allowed values. -/
theorem C6_enum_validate (A : List String) (v : String) :
    (validate (VType.enum A) (Expr.literal v) = none ↔ v ∈ A)
    ∧ (v ∉ A →
        validate (VType.enum A) (Expr.literal v)
          = some ⟨"enum", Expr.literal v,
                  some ("must be one of " ++ pyStrListRepr A)⟩) := by
  constructor
  · by_cases hv : v ∈ A <;> simp [validate, hv]
  · intro hv
    simp [validate, hv]

/-- Witness for C6 at A = on/off, with an accepted and a rejected
literal. -/
theorem C6_enum_validate_witness :
    validate (VType.enum ["on", "off"]) (Expr.literal "off") = none
    ∧ validate (VType.enum ["on", "off"]) (Expr.literal "mid")
        = some ⟨"enum", Expr.literal "mid",
                some ("must be one of " ++ pyStrListRepr ["on", "off"])⟩ :=
  ⟨(C6_enum_validate ["on", "off"] "off").1.mpr (by decide),
   (C6_enum_validate ["on", "off"] "mid").2 (by decide)⟩

/-- C7: for every list type over item type I, normalizing a non-list
expression yields a one-element list whose single element is the
item-type normalization of that expression. -/
theorem C7_list_normalize_scalar (item : VType) (e : Expr)
    (h : e.isListE = false) :
    normalize (VType.listT item) e = Expr.listE [normalize item e] := by
  cases e with
  | listE items => simp [Expr.isListE] at h
  | literal v => rfl
  | pathE c a => rfl
  | ref n => rfl

/-- Witness for C7 at I = id, e = the literal "x". -/
theorem C7_list_normalize_scalar_witness :
    (Expr.literal "x").isListE = false
    ∧ normalize (VType.listT .id) (Expr.literal "x")
        = Expr.listE [normalize VType.id (Expr.literal "x")] :=
  ⟨rfl, C7_list_normalize_scalar VType.id (Expr.literal "x") rfl⟩

/-! ## XML serializer (vs2010.py) -/

/-- The child loop's output distributes over list concatenation. -/
theorem formatEntries_append (l₁ l₂ : List XEntry) (ind : String) :
    formatEntries (l₁ ++ l₂) ind = formatEntries l₁ ind ++ formatEntries l₂ ind := by
  induction l₁ with
  | nil => simp [formatEntries]
  | cons e rest ih => simp [formatEntries, ih, String.append_assoc]

/-- Output of `_format_node` for a node that has children. -/
theorem formatNode_of_children_ne_nil (name : String) (text : Option String)
    (attrs : List (String × XVal)) (children : List XEntry) (ind : String)
    (h : children ≠ []) :
    formatNode (XNode.mk name text attrs children) ind
      = ind ++ "<" ++ name ++ formatAttrs attrs ++ ">\n"
        ++ formatEntries children (ind ++ "  ")
        ++ ind ++ "</" ++ name ++ ">\n" := by
  rw [formatNode]
  simp only [List.isEmpty_eq_false.mpr h]
  simp [String.append_assoc]

/-- C8: in `XmlFormatter._format_node`, a scalar (non-Node) child whose
formatted, escaped value is the empty string contributes no element to
the output (removing it from any node with other children leaves the
serialized output unchanged), while a scalar child with a non-empty
escaped value is rendered as `<tag>escaped-value</tag>`. -/
theorem C8_empty_scalar_leaves (tag : String) (v : XVal) (ind : String) :
    (xmlEscape (formatValue v) = "" → formatEntry (XEntry.value tag v) ind = "")
    ∧ (xmlEscape (formatValue v) ≠ "" →
        formatEntry (XEntry.value tag v) ind
          = ind ++ "<" ++ tag ++ ">" ++ xmlEscape (formatValue v) ++ "</" ++ tag ++ ">\n")
    ∧ (∀ (name : String) (text : Option String) (attrs : List (String × XVal))
        (pre post : List XEntry),
        xmlEscape (formatValue v) = "" → pre ++ post ≠ [] →
        formatNode (XNode.mk name text attrs (pre ++ XEntry.value tag v :: post)) ind
          = formatNode (XNode.mk name text attrs (pre ++ post)) ind) := by
  refine ⟨?_, ?_, ?_⟩
  · intro h
    simp [formatEntry, h]
  · intro h
    simp [formatEntry, h, String.append_assoc]
  · intro name text attrs pre post hv hne
    have hne' : pre ++ XEntry.value tag v :: post ≠ [] := by
      simp
    rw [formatNode_of_children_ne_nil _ _ _ _ _ hne',
        formatNode_of_children_ne_nil _ _ _ _ _ hne]
    have hmid : formatEntry (XEntry.value tag v) (ind ++ "  ") = "" := by
      simp [formatEntry, hv]
    have : formatEntries (pre ++ XEntry.value tag v :: post) (ind ++ "  ")
        = formatEntries (pre ++ post) (ind ++ "  ") := by
      rw [formatEntries_append, formatEntries_append]
      simp [formatEntries, hmid]
    rw [this]

/-- Witness for C8: an empty list value renders to "" and is omitted; a
non-empty string value renders as an element. -/
theorem C8_empty_scalar_leaves_witness :
    formatEntry (XEntry.value "Empty" (XVal.listV [])) "  " = ""
    ∧ formatEntry (XEntry.value "Full" (XVal.str "hi")) "  "
        = "  " ++ "<" ++ "Full" ++ ">" ++ xmlEscape (formatValue (XVal.str "hi"))
          ++ "</" ++ "Full" ++ ">\n" :=
  ⟨(C8_empty_scalar_leaves "Empty" (XVal.listV []) "  ").1 rfl,
   (C8_empty_scalar_leaves "Full" (XVal.str "hi") "  ").2.1 (by decide)⟩

/-! ## Per-module generation gate (vs2010.py) -/

/-- A lower bound of a list and of the default bounds its `getLastD`. -/
theorem le_getLastD_of_le (b : Nat) :
    ∀ (t : List Nat) (d : Nat), b ≤ d → (∀ y ∈ t, b ≤ y) → b ≤ t.getLastD d := by
  intro t
  induction t with
  | nil => intro d hd _; simpa using hd
  | cons c u ih =>
    intro d _ hall
    rw [List.getLastD_cons]
    exact ih c (hall c (by simp)) (fun y hy => hall y (by simp [hy]))

/-- In a `≤`-sorted list every member is at most the last element
(`proj_versions[-1]`, `proj_versions` being a sorted list). -/
theorem sorted_mem_le_getLastD (l : List Nat) (hs : l.Sorted (· ≤ ·)) :
    ∀ x ∈ l, ∀ (d : Nat), x ≤ l.getLastD d := by
  induction l with
  | nil => intro x hx; simp at hx
  | cons b t ih =>
    intro x hx d
    rw [List.getLastD_cons]
    have hbt := List.sorted_cons.mp hs
    rcases List.mem_cons.mp hx with hxb | hxt
    · subst hxb
      exact le_getLastD_of_le x t x le_rfl (fun y hy => hbt.1 y hy)
    · exact ih hbt.2 x hxt b

/-- The last element of a non-empty list is a member. -/
theorem getLastD_mem : ∀ (l : List Nat), l ≠ [] → ∀ (d : Nat), l.getLastD d ∈ l := by
  intro l
  induction l with
  | nil => intro h; exact absurd rfl h
  | cons b t ih =>
    intro _ d
    rw [List.getLastD_cons]
    cases ht : t with
    | nil => subst ht; simp
    | cons c u =>
      subst ht
      exact List.mem_cons_of_mem b (ih (by simp) b)

/-- C4: the validation gate of `gen_for_module` — a project whose name
differs from its target's name is a fatal error; a version newer than
every supported version is a fatal error; a version outside the
supported list but not newer than the largest supported version only
warns and the project is still added; a supported version is added
silently. -/
theorem C4_validation_gate (pv : List Nat) (prjName tName : String) (version : Nat)
    (hne : pv ≠ []) (hsorted : pv.Sorted (· ≤ ·)) :
    (prjName ≠ tName →
      checkGeneratedProject pv prjName tName version = .fatalNameMismatch)
    ∧ (prjName = tName → version ∉ pv → (∀ v ∈ pv, v < version) →
        checkGeneratedProject pv prjName tName version = .fatalVersionTooNew)
    ∧ (prjName = tName → version ∉ pv → (∃ v ∈ pv, version ≤ v) →
        checkGeneratedProject pv prjName tName version = .addedWithWarning)
    ∧ (prjName = tName → version ∈ pv →
        checkGeneratedProject pv prjName tName version = .added) := by
  refine ⟨?_, ?_, ?_, ?_⟩
  · intro hname
    simp [checkGeneratedProject, hname]
  · intro hname hmem hgt
    have hlast : pv.getLast?.getD 0 < version := by
      rw [← List.getLastD_eq_getLast?]
      exact hgt _ (getLastD_mem pv hne 0)
    simp [checkGeneratedProject, hname, hmem, hlast]
  · intro hname hmem hle
    obtain ⟨v, hv, hvle⟩ := hle
    have hub : version ≤ pv.getLast?.getD 0 := by
      rw [← List.getLastD_eq_getLast?]
      exact le_trans hvle (sorted_mem_le_getLastD pv hsorted v hv 0)
    simp [checkGeneratedProject, hname, hmem, Nat.not_lt.mpr hub]
  · intro hname hmem
    simp [checkGeneratedProject, hname, hmem]

/-- Witness for C4 at the vs11 toolset's supported versions [10, 11]:
a mismatched name, version 12 (too new), version 9 (older but
compatible) and version 11 (supported). -/
theorem C4_validation_gate_witness :
    checkGeneratedProject [10, 11] "other" "app" 10 = .fatalNameMismatch
    ∧ checkGeneratedProject [10, 11] "app" "app" 12 = .fatalVersionTooNew
    ∧ checkGeneratedProject [10, 11] "app" "app" 9 = .addedWithWarning
    ∧ checkGeneratedProject [10, 11] "app" "app" 11 = .added :=
  ⟨(C4_validation_gate [10, 11] "other" "app" 10 (by decide)
      (by simp)).1 (by decide),
   (C4_validation_gate [10, 11] "app" "app" 12 (by decide)
      (by simp)).2.1 rfl (by decide) (by decide),
   (C4_validation_gate [10, 11] "app" "app" 9 (by decide)
      (by simp)).2.2.1 rfl (by decide) ⟨10, by decide⟩,
   (C4_validation_gate [10, 11] "app" "app" 11 (by decide)
      (by simp)).2.2.2 rfl (by decide)⟩

/-! ## Set representation lemmas (`additional_deps`) -/

theorem setInsert_of_not_mem {s : List String} {x : String} (h : x ∉ s) :
    setInsert s x = s ++ [x] := by
  simp [setInsert, h]

theorem mem_setInsert {s : List String} {x y : String} :
    y ∈ setInsert s x ↔ y = x ∨ y ∈ s := by
  by_cases h : x ∈ s
  · simp only [setInsert, if_pos h]
    exact ⟨Or.inr, fun h2 => h2.elim (fun e => e ▸ h) (fun h3 => h3)⟩
  · simp [setInsert, if_neg h, or_comm]

theorem setInsert_nodup {s : List String} (h : s.Nodup) (x : String) :
    (setInsert s x).Nodup := by
  by_cases hx : x ∈ s
  · simpa [setInsert, if_pos hx] using h
  · rw [setInsert_of_not_mem hx]
    simp [List.nodup_append, h, hx]

theorem mem_setUnion {l : List String} :
    ∀ {s : List String} {x : String}, x ∈ setUnion s l ↔ x ∈ s ∨ x ∈ l := by
  induction l with
  | nil => intro s x; simp [setUnion]
  | cons a t ih =>
    intro s x
    have : setUnion s (a :: t) = setUnion (setInsert s a) t := rfl
    rw [this, ih, mem_setInsert]
    constructor
    · rintro ((rfl | hs) | ht)
      · exact Or.inr (by simp)
      · exact Or.inl hs
      · exact Or.inr (by simp [ht])
    · rintro (hs | hat)
      · exact Or.inl (Or.inr hs)
      · rcases List.mem_cons.mp hat with rfl | ht
        · exact Or.inl (Or.inl rfl)
        · exact Or.inr ht

theorem setUnion_nodup {l : List String} :
    ∀ {s : List String}, s.Nodup → (setUnion s l).Nodup := by
  induction l with
  | nil => intro s h; simpa [setUnion] using h
  | cons a t ih =>
    intro s h
    have : setUnion s (a :: t) = setUnion (setInsert s a) t := rfl
    rw [this]
    exact ih (setInsert_nodup h a)

theorem mem_setOfList {l : List String} {x : String} :
    x ∈ setOfList l ↔ x ∈ l := by
  simp [setOfList, mem_setUnion]

theorem setOfList_nodup (l : List String) : (setOfList l).Nodup :=
  setUnion_nodup List.nodup_nil

/-- Membership in the initial `todo` set of `additional_deps`
(`todo.update(deps)` folded over all projects). -/
theorem mem_depsFold {l : List PrjInfo} :
    ∀ {acc : List String} {x : String},
    x ∈ l.foldl (fun acc p => setUnion acc p.deps) acc
      ↔ x ∈ acc ∨ ∃ p ∈ l, x ∈ p.deps := by
  induction l with
  | nil => intro acc x; simp
  | cons q t ih =>
    intro acc x
    have : (q :: t).foldl (fun acc p => setUnion acc p.deps) acc
        = t.foldl (fun acc p => setUnion acc p.deps) (setUnion acc q.deps) := rfl
    rw [this, ih, mem_setUnion]
    constructor
    · rintro ((ha | hq) | ⟨p, hp, hx⟩)
      · exact Or.inl ha
      · exact Or.inr ⟨q, by simp, hq⟩
      · exact Or.inr ⟨p, by simp [hp], hx⟩
    · rintro (ha | ⟨p, hp, hx⟩)
      · exact Or.inl (Or.inl ha)
      · rcases List.mem_cons.mp hp with rfl | hpt
        · exact Or.inl (Or.inr hx)
        · exact Or.inr ⟨p, hpt, hx⟩

theorem depsFold_nodup {l : List PrjInfo} :
    ∀ {acc : List String}, acc.Nodup →
    (l.foldl (fun acc p => setUnion acc p.deps) acc).Nodup := by
  induction l with
  | nil => intro acc h; simpa using h
  | cons q t ih =>
    intro acc h
    exact ih (setUnion_nodup h)

/-! ## Solution tree lemmas -/

mutual
/-- `_get_project_info` only returns projects of the tree, with the
requested name. -/
theorem getProjectInfo_sound : ∀ (s : Solution) (id : String) (p : PrjInfo),
    getProjectInfo s id = some p → p ∈ allProjects s ∧ p.name = id
  | .mk n g prjs subs, id, p, h => by
    rw [getProjectInfo] at h
    cases hf : prjs.find? (fun q => q.name = id) with
    | some q =>
      rw [hf] at h
      cases h
      refine ⟨?_, ?_⟩
      · exact List.mem_append_left _ (List.mem_of_find?_eq_some hf)
      · have hq := List.find?_some hf
        exact of_decide_eq_true hq
    | none =>
      rw [hf] at h
      have := getProjectInfoList_sound subs id p h
      exact ⟨List.mem_append_right _ this.1, this.2⟩

theorem getProjectInfoList_sound : ∀ (l : List Solution) (id : String) (p : PrjInfo),
    getProjectInfoList l id = some p → p ∈ allProjectsList l ∧ p.name = id
  | [], id, p, h => by simp [getProjectInfoList] at h
  | s :: rest, id, p, h => by
    rw [getProjectInfoList] at h
    cases hs : getProjectInfo s id with
    | some q =>
      rw [hs] at h
      cases h
      have := getProjectInfo_sound s id p hs
      exact ⟨List.mem_append_left _ this.1, this.2⟩
    | none =>
      rw [hs] at h
      have := getProjectInfoList_sound rest id p h
      exact ⟨List.mem_append_right _ this.1, this.2⟩
end

mutual
/-- `_get_project_info` finds every name present in the tree. -/
theorem getProjectInfo_complete : ∀ (s : Solution) (id : String),
    id ∈ (allProjects s).map PrjInfo.name → ∃ p, getProjectInfo s id = some p
  | .mk n g prjs subs, id, hid => by
    rw [getProjectInfo]
    cases hf : prjs.find? (fun q => q.name = id) with
    | some q => exact ⟨q, rfl⟩
    | none =>
      have hnotp : ∀ q ∈ prjs, q.name ≠ id := by
        intro q hq
        have := List.find?_eq_none.mp hf q hq
        simpa using this
      have : id ∈ (allProjectsList subs).map PrjInfo.name := by
        rw [allProjects] at hid
        rcases List.mem_map.mp hid with ⟨q, hq, hqn⟩
        rcases List.mem_append.mp hq with hq1 | hq2
        · exact absurd hqn (hnotp q hq1)
        · exact List.mem_map.mpr ⟨q, hq2, hqn⟩
      exact getProjectInfoList_complete subs id this

theorem getProjectInfoList_complete : ∀ (l : List Solution) (id : String),
    id ∈ (allProjectsList l).map PrjInfo.name → ∃ p, getProjectInfoList l id = some p
  | [], id, hid => by simp [allProjectsList] at hid
  | s :: rest, id, hid => by
    rw [getProjectInfoList]
    cases hs : getProjectInfo s id with
    | some q => exact ⟨q, rfl⟩
    | none =>
      have : id ∈ (allProjectsList rest).map PrjInfo.name := by
        rw [allProjectsList] at hid
        rcases List.mem_map.mp hid with ⟨q, hq, hqn⟩
        rcases List.mem_append.mp hq with hq1 | hq2
        · exfalso
          rcases getProjectInfo_complete s id
              (List.mem_map.mpr ⟨q, hq1, hqn⟩) with ⟨p, hp⟩
          rw [hs] at hp
          cases hp
        · exact List.mem_map.mpr ⟨q, hq2, hqn⟩
      exact getProjectInfoList_complete rest id this
end

/-- A subsolution's projects are among the flattened projects of the
subsolution list. -/
theorem allProjects_mem_list {c : Solution} :
    ∀ {subs : List Solution}, c ∈ subs →
    ∀ {x : PrjInfo}, x ∈ allProjects c → x ∈ allProjectsList subs := by
  intro subs
  induction subs with
  | nil => intro h; simp at h
  | cons d rest ih =>
    intro hc x hx
    rw [allProjectsList]
    rcases List.mem_cons.mp hc with rfl | hcr
    · exact List.mem_append_left _ hx
    · exact List.mem_append_right _ (ih hcr hx)

/-- Along a well-formed parent chain, every project of a solution is a
project of the top-most ancestor's whole tree. -/
theorem allProjects_subset_top :
    ∀ (parents : List Solution) (s : Solution), ParentChain s parents →
    ∀ {x : PrjInfo}, x ∈ allProjects s → x ∈ allProjects (findTop s parents) := by
  intro parents
  induction parents with
  | nil => intro s _ x hx; exact hx
  | cons p rest ih =>
    intro s hchain x hx
    have h1 : s ∈ p.subsolutions := hchain.1
    have hx' : x ∈ allProjects p := by
      cases p with
      | mk n g prjs subs =>
        rw [allProjects]
        exact List.mem_append_right _ (allProjects_mem_list h1 hx)
    exact ih p hchain.2 hx'

/-- With unique project names, two tree projects with the same name are
equal. -/
theorem unique_by_name {top : Solution} (hnodup : namesNodup top)
    {p q : PrjInfo} (hp : p ∈ allProjects top) (hq : q ∈ allProjects top)
    (h : p.name = q.name) : p = q :=
  List.inj_on_of_nodup_map hnodup hp hq h

/-- Every name reachable from a start set of tree-project names is a
tree-project name (dependencies resolve inside the tree). -/
theorem reach_mem_names {top : Solution} {P : List String}
    (hres : depsResolvable top)
    (hPn : ∀ x ∈ P, x ∈ (allProjects top).map PrjInfo.name) :
    ∀ {x : String}, ReachFrom top P x → x ∈ (allProjects top).map PrjInfo.name := by
  intro x hx
  induction hx with
  | base y hy => exact hPn y hy
  | step a b ha hedge ih =>
    rcases hedge with ⟨p, hp, hpa, hbd⟩
    rcases hres p hp b hbd with ⟨q, hq, hqb⟩
    exact List.mem_map.mpr ⟨q, hq, hqb⟩

/-! ## One fixpoint pass of `additional_deps` -/

/-- The names of the looked-up projects are the processed names, in
order. -/
theorem forall₂_lookup_names {top : Solution} :
    ∀ {items : List String} {ps : List PrjInfo},
    List.Forall₂ (fun i p => getProjectInfo top i = some p) items ps →
    ps.map PrjInfo.name = items := by
  intro items ps h
  induction h with
  | nil => rfl
  | cons hip htail ih =>
    simp only [List.map_cons, ih]
    rw [(getProjectInfo_sound _ _ _ hip).2]

/-- Each looked-up project is the lookup result of its own name. -/
theorem forall₂_lookup_self {top : Solution} :
    ∀ {items : List String} {ps : List PrjInfo},
    List.Forall₂ (fun i p => getProjectInfo top i = some p) items ps →
    ∀ p ∈ ps, getProjectInfo top p.name = some p := by
  intro items ps h
  induction h with
  | nil => intro p hp; simp at hp
  | cons hip htail ih =>
    intro p hp
    rcases List.mem_cons.mp hp with rfl | hptail
    · rw [(getProjectInfo_sound _ _ _ hip).2]
      exact hip
    · exact ih p hptail

/-- Specification of the inner `for todo_item in todo:` loop: processing
a duplicate-free list of fresh, resolvable names extends `included` by
exactly those names, appends their looked-up projects to `additional`,
and collects exactly their dependencies (plus the incoming `todo_new`)
into the new `todo_new`. -/
theorem processPass_spec (top : Solution) :
    ∀ (items : List String) (included tn : List String) (A : List PrjInfo),
    (∀ i ∈ items, ∃ p, getProjectInfo top i = some p) →
    items.Nodup →
    (∀ i ∈ items, i ∉ included) →
    ∃ ps tn',
      processPass top items included tn A = some (included ++ items, tn', A ++ ps)
      ∧ List.Forall₂ (fun i p => getProjectInfo top i = some p) items ps
      ∧ (∀ x ∈ tn', x ∈ tn ∨ ∃ p ∈ ps, x ∈ p.deps)
      ∧ (∀ x ∈ tn, x ∈ tn')
      ∧ (∀ p ∈ ps, ∀ d ∈ p.deps, d ∈ tn') := by
  intro items
  induction items with
  | nil =>
    intro included tn A _ _ _
    refine ⟨[], tn, ?_, List.Forall₂.nil, ?_, ?_, ?_⟩
    · simp [processPass]
    · intro x hx; exact Or.inl hx
    · intro x hx; exact hx
    · intro p hp; simp at hp
  | cons i rest ih =>
    intro included tn A hres hnd hdisj
    rcases hres i (by simp) with ⟨p, hp⟩
    have hstep :
        processPass top (i :: rest) included tn A
          = processPass top rest (setInsert included i)
              (setUnion tn p.deps) (A ++ [p]) := by
      rw [processPass, hp]
    have hins : setInsert included i = included ++ [i] :=
      setInsert_of_not_mem (hdisj i (by simp))
    have hndrest : rest.Nodup := (List.nodup_cons.mp hnd).2
    have hdisj' : ∀ r ∈ rest, r ∉ included ++ [i] := by
      intro r hr
      simp only [List.mem_append, List.mem_singleton]
      rintro (hrin | rfl)
      · exact hdisj r (by simp [hr]) hrin
      · exact (List.nodup_cons.mp hnd).1 hr
    rcases ih (included ++ [i]) (setUnion tn p.deps) (A ++ [p])
        (fun r hr => hres r (by simp [hr])) hndrest hdisj'
      with ⟨ps', tn', hrun, hfa, htn'mem, htnsub, hdeps⟩
    refine ⟨p :: ps', tn', ?_, List.Forall₂.cons hp hfa, ?_, ?_, ?_⟩
    · rw [hstep, hins, hrun]
      simp [List.append_assoc]
    · intro x hx
      rcases htn'mem x hx with hx1 | ⟨q, hq, hxq⟩
      · rcases mem_setUnion.mp hx1 with hx2 | hx3
        · exact Or.inl hx2
        · exact Or.inr ⟨p, by simp, hx3⟩
      · exact Or.inr ⟨q, by simp [hq], hxq⟩
    · intro x hx
      exact htnsub x (mem_setUnion.mpr (Or.inl hx))
    · intro q hq d hd
      rcases List.mem_cons.mp hq with rfl | hq'
      · exact htnsub d (mem_setUnion.mpr (Or.inr hd))
      · exact hdeps q hq' d hd

/-! ## The fixpoint loop of `additional_deps` -/

/-- `included` never exceeds the number of projects of the tree. -/
theorem loopInv_length_le {top : Solution} {P : List String}
    (hres : depsResolvable top)
    (hPn : ∀ x ∈ P, x ∈ (allProjects top).map PrjInfo.name)
    {pc : Nat} {I T : List String} {A : List PrjInfo}
    (inv : LoopInv top P pc I T A) :
    I.length ≤ (allProjects top).length := by
  have hsub : I ⊆ (allProjects top).map PrjInfo.name := fun x hx =>
    reach_mem_names hres hPn (inv.reachI x hx)
  have := (List.subperm_of_subset inv.nodupI hsub).length_le
  simpa using this

/-- When nothing is pending, `included` is the whole closure and
`additional` satisfies the closure specification. -/
theorem loopInv_exit_props {top : Solution} {P : List String}
    {pc : Nat} {I T : List String} {A : List PrjInfo}
    (inv : LoopInv top P pc I T A)
    (hTI : ∀ x ∈ T, x ∈ I) :
    (A.map PrjInfo.name).Nodup
    ∧ (∀ prj, prj ∈ A ↔ (getProjectInfo top prj.name = some prj
         ∧ ReachFrom top P prj.name ∧ prj.name ∉ P)) := by
  have hclosed : ∀ x, ReachFrom top P x → x ∈ I := by
    intro x hx
    induction hx with
    | base y hy => exact inv.subP y hy
    | step a b ha hedge ih =>
      rcases inv.frontier a ih b hedge with h1 | h2
      · exact h1
      · exact hTI b h2
  have hnodupApp : (setOfList P ++ A.map PrjInfo.name).Nodup := by
    rw [← inv.decomp]
    exact inv.nodupI
  have hnodupA : (A.map PrjInfo.name).Nodup := hnodupApp.of_append_right
  have hdisj : ∀ x ∈ A.map PrjInfo.name, x ∉ setOfList P := by
    intro x hx hxP
    exact (List.disjoint_of_nodup_append hnodupApp) hxP hx
  refine ⟨hnodupA, ?_⟩
  intro prj
  constructor
  · intro hprj
    have hname : prj.name ∈ A.map PrjInfo.name := List.mem_map.mpr ⟨prj, hprj, rfl⟩
    have hnameI : prj.name ∈ I := by
      rw [inv.decomp]
      exact List.mem_append_right _ hname
    refine ⟨inv.lookupA prj hprj, inv.reachI _ hnameI, ?_⟩
    intro hP
    exact hdisj _ hname (mem_setOfList.mpr hP)
  · rintro ⟨hlk, hreach, hnP⟩
    have hnameI : prj.name ∈ I := hclosed _ hreach
    rw [inv.decomp] at hnameI
    rcases List.mem_append.mp hnameI with h1 | h2
    · exact absurd (mem_setOfList.mp h1) hnP
    · rcases List.mem_map.mp h2 with ⟨q, hq, hqn⟩
      have hlkq := inv.lookupA q hq
      rw [hqn, hlk] at hlkq
      injection hlkq with h
      rw [← h] at hq
      exact hq

/-- Main lemma on the fixpoint loop: from any state satisfying the
invariant, every sufficiently large fuel makes the loop terminate with
one and the same result, which lists exactly the closure of `P` minus
`P`, each project once. -/
theorem closureLoop_spec (top : Solution) (P : List String)
    (hres : depsResolvable top) (hnodup : namesNodup top)
    (hPn : ∀ x ∈ P, x ∈ (allProjects top).map PrjInfo.name) :
    ∀ (k pc : Nat) (I T : List String) (A : List PrjInfo),
    LoopInv top P pc I T A →
    (allProjects top).length + 1 - I.length ≤ k →
    ∃ A', (∀ fuel, (allProjects top).length + 2 - I.length ≤ fuel →
             closureLoop top fuel pc I T A = some A')
      ∧ (A'.map PrjInfo.name).Nodup
      ∧ (∀ prj, prj ∈ A' ↔ (getProjectInfo top prj.name = some prj
            ∧ ReachFrom top P prj.name ∧ prj.name ∉ P)) := by
  intro k
  induction k with
  | zero =>
    intro pc I T A inv hk
    exfalso
    have := loopInv_length_le hres hPn inv
    omega
  | succ k ih =>
    intro pc I T A inv hk
    have hIle := loopInv_length_le hres hPn inv
    by_cases hexit : pc = I.length
    · obtain ⟨hnodupA, hiff⟩ := loopInv_exit_props inv (inv.exitT hexit)
      refine ⟨A, ?_, hnodupA, hiff⟩
      intro fuel hfuel
      cases fuel with
      | zero => omega
      | succ f => rw [closureLoop, if_pos hexit]
    · have hT1nodup : (T.filter (fun x => x ∉ I)).Nodup := inv.nodupT.filter _
      have hT1T : ∀ i ∈ T.filter (fun x => x ∉ I), i ∈ T := by
        intro i hi
        exact List.mem_of_mem_filter hi
      have hT1nI : ∀ i ∈ T.filter (fun x => x ∉ I), i ∉ I := by
        intro i hi
        have := List.of_mem_filter hi
        simpa using this
      by_cases hT1 : T.filter (fun x => x ∉ I) = []
      · have hTI : ∀ x ∈ T, x ∈ I := by
          intro x hx
          by_contra hxI
          have hmem : x ∈ T.filter (fun x => x ∉ I) :=
            List.mem_filter.mpr ⟨hx, by simpa using hxI⟩
          rw [hT1] at hmem
          simp at hmem
        obtain ⟨hnodupA, hiff⟩ := loopInv_exit_props inv hTI
        refine ⟨A, ?_, hnodupA, hiff⟩
        intro fuel hfuel
        cases fuel with
        | zero => omega
        | succ f =>
          rw [closureLoop, if_neg hexit]
          simp only [hT1, processPass, setUnion, List.foldl_nil]
          cases f with
          | zero => omega
          | succ f2 => rw [closureLoop, if_pos rfl]
      · have hT1res : ∀ i ∈ T.filter (fun x => x ∉ I),
            ∃ p, getProjectInfo top i = some p := by
          intro i hi
          exact getProjectInfo_complete top i
            (reach_mem_names hres hPn (inv.reachT i (hT1T i hi)))
        rcases processPass_spec top (T.filter (fun x => x ∉ I)) I [] A
            hT1res hT1nodup hT1nI
          with ⟨ps, tn', hrun, hfa, htn'mem, htnsub, hdeps⟩
        have hpsnames : ps.map PrjInfo.name = T.filter (fun x => x ∉ I) :=
          forall₂_lookup_names hfa
        have hpsself := forall₂_lookup_self hfa
        have hpsreach : ∀ p ∈ ps, ReachFrom top P p.name := by
          intro p hp
          have hpn : p.name ∈ T.filter (fun x => x ∉ I) := by
            rw [← hpsnames]
            exact List.mem_map.mpr ⟨p, hp, rfl⟩
          exact inv.reachT _ (hT1T _ hpn)
        have hpsmem : ∀ p ∈ ps, p ∈ allProjects top := by
          intro p hp
          exact (getProjectInfo_sound _ _ _ (hpsself p hp)).1
        have hT1len : 0 < (T.filter (fun x => x ∉ I)).length :=
          List.length_pos.mpr hT1
        have inv' : LoopInv top P I.length (I ++ T.filter (fun x => x ∉ I))
            (setUnion (T.filter (fun x => x ∉ I)) tn') (A ++ ps) := by
          refine ⟨?_, ?_, ?_, ?_, ?_, ?_, ?_, ?_, ?_⟩
          · exact List.Nodup.append inv.nodupI hT1nodup
              (fun a haI haT1 => hT1nI a haT1 haI)
          · exact setUnion_nodup hT1nodup
          · intro x hx
            rcases List.mem_append.mp hx with h1 | h2
            · exact inv.reachI x h1
            · exact inv.reachT x (hT1T x h2)
          · exact fun x hx => List.mem_append_left _ (inv.subP x hx)
          · intro x hx
            rcases mem_setUnion.mp hx with h1 | h2
            · exact inv.reachT x (hT1T x h1)
            · rcases htn'mem x h2 with h3 | ⟨p, hp, hxp⟩
              · simp at h3
              · exact ReachFrom.step p.name x (hpsreach p hp)
                  ⟨p, hpsmem p hp, rfl, hxp⟩
          · intro a ha b hedge
            rcases List.mem_append.mp ha with haI | haT1
            · rcases inv.frontier a haI b hedge with hbI | hbT
              · exact Or.inl (List.mem_append_left _ hbI)
              · by_cases hbI : b ∈ I
                · exact Or.inl (List.mem_append_left _ hbI)
                · exact Or.inl (List.mem_append_right _
                    (List.mem_filter.mpr ⟨hbT, by simpa using hbI⟩))
            · rcases hedge with ⟨q, hqmem, hqname, hbdeps⟩
              have : a ∈ ps.map PrjInfo.name := by rw [hpsnames]; exact haT1
              rcases List.mem_map.mp this with ⟨pa, hpa, hpan⟩
              have hqpa : q = pa :=
                unique_by_name hnodup hqmem (hpsmem pa hpa) (by rw [hqname, hpan])
              subst hqpa
              exact Or.inr (mem_setUnion.mpr (Or.inr (hdeps q hpa b hbdeps)))
          · rw [List.map_append, hpsnames, ← List.append_assoc, ← inv.decomp]
          · intro p hp
            rcases List.mem_append.mp hp with h1 | h2
            · exact inv.lookupA p h1
            · exact hpsself p h2
          · intro h
            exfalso
            rw [List.length_append] at h
            omega
        rcases ih I.length (I ++ T.filter (fun x => x ∉ I))
            (setUnion (T.filter (fun x => x ∉ I)) tn') (A ++ ps) inv'
            (by rw [List.length_append]; omega)
          with ⟨A'', hrunall, hnodupA, hiff⟩
        refine ⟨A'', ?_, hnodupA, hiff⟩
        intro fuel hfuel
        cases fuel with
        | zero => omega
        | succ f =>
          rw [closureLoop, if_neg hexit]
          simp only [hrun]
          exact hrunall f (by rw [List.length_append]; omega)

/-- C1: for every solution tree with locally-declared project names P
and the dependency graph given by the projects' declared dependencies,
`additional_deps` returns exactly the tree's projects whose names are
in the transitive closure of P minus P itself, each exactly once, and
the fixpoint loop terminates (every fuel at least the default yields
the same result) even in the presence of dependency cycles. -/
theorem C1_additional_deps_closure (s : Solution) (parents : List Solution)
    (hchain : ParentChain s parents)
    (hres : depsResolvable (findTop s parents))
    (hnodup : namesNodup (findTop s parents)) :
    ∃ A, additional_deps s parents = some A
      ∧ (∀ g, (allProjects (findTop s parents)).length + 2 ≤ g →
           additionalDepsFuel g s parents = some A)
      ∧ (A.map PrjInfo.name).Nodup
      ∧ (∀ prj, prj ∈ A ↔
           (getProjectInfo (findTop s parents) prj.name = some prj
            ∧ ReachFrom (findTop s parents) ((allProjects s).map PrjInfo.name) prj.name
            ∧ prj.name ∉ (allProjects s).map PrjInfo.name)) := by
  have hPn : ∀ x ∈ (allProjects s).map PrjInfo.name,
      x ∈ (allProjects (findTop s parents)).map PrjInfo.name := by
    intro x hx
    rcases List.mem_map.mp hx with ⟨p, hp, rfl⟩
    exact List.mem_map.mpr ⟨p, allProjects_subset_top parents s hchain hp, rfl⟩
  cases parents with
  | nil =>
    refine ⟨[], by simp [additional_deps, additionalDepsFuel], ?_, by simp, ?_⟩
    · intro g _
      simp [additionalDepsFuel]
    · intro prj
      simp only [List.not_mem_nil, false_iff]
      rintro ⟨hlk, hreach, hnP⟩
      exact hnP (reach_mem_names hres hPn hreach)
  | cons p rest =>
    have inv₀ : LoopInv (findTop s (p :: rest)) ((allProjects s).map PrjInfo.name) 0
        (setOfList ((allProjects s).map PrjInfo.name))
        ((allProjects s).foldl (fun acc q => setUnion acc q.deps) [])
        [] := by
      refine ⟨setOfList_nodup _, depsFold_nodup List.nodup_nil, ?_, ?_, ?_, ?_, by simp, ?_, ?_⟩
      · intro x hx
        exact ReachFrom.base x (mem_setOfList.mp hx)
      · intro x hx
        exact mem_setOfList.mpr hx
      · intro x hx
        rcases mem_depsFold.mp hx with h1 | ⟨q, hq, hxq⟩
        · simp at h1
        · exact ReachFrom.step q.name x
            (ReachFrom.base _ (List.mem_map.mpr ⟨q, hq, rfl⟩))
            ⟨q, allProjects_subset_top _ s hchain hq, rfl, hxq⟩
      · intro a ha b hedge
        rcases List.mem_map.mp (mem_setOfList.mp ha) with ⟨q, hq, hqa⟩
        rcases hedge with ⟨r, hrmem, hrname, hbdeps⟩
        have hrq : r = q :=
          unique_by_name hnodup hrmem
            (allProjects_subset_top _ s hchain hq) (by rw [hrname, hqa])
        subst hrq
        exact Or.inr (mem_depsFold.mpr (Or.inr ⟨r, hq, hbdeps⟩))
      · intro q hq
        simp at hq
      · intro h x hx
        exfalso
        have hempty : setOfList ((allProjects s).map PrjInfo.name) = [] :=
          List.length_eq_zero.mp h.symm
        rcases mem_depsFold.mp hx with h1 | ⟨q, hq, hxq⟩
        · simp at h1
        · have : q.name ∈ setOfList ((allProjects s).map PrjInfo.name) :=
            mem_setOfList.mpr (List.mem_map.mpr ⟨q, hq, rfl⟩)
          rw [hempty] at this
          simp at this
    rcases closureLoop_spec (findTop s (p :: rest)) ((allProjects s).map PrjInfo.name)
        hres hnodup hPn
        ((allProjects (findTop s (p :: rest))).length + 1) 0
        (setOfList ((allProjects s).map PrjInfo.name))
        ((allProjects s).foldl (fun acc q => setUnion acc q.deps) [])
        [] inv₀ (Nat.sub_le _ _)
      with ⟨A', hrunall, hnodupA, hiff⟩
    refine ⟨A', ?_, ?_, hnodupA, hiff⟩
    · show additionalDepsFuel _ s (p :: rest) = some A'
      simp only [additionalDepsFuel, List.isEmpty_cons, Bool.false_eq_true, if_false]
      exact hrunall _ (Nat.sub_le _ _)
    · intro g hg
      simp only [additionalDepsFuel, List.isEmpty_cons, Bool.false_eq_true, if_false]
      exact hrunall g (by omega)

/-- Witness for C1 at the concrete tree: `exS` (child of `exT`) owns
X, Z, W and reaches the external project Y. -/
theorem C1_additional_deps_closure_witness :
    ∃ A, additional_deps exS [exT] = some A
      ∧ (∀ g, (allProjects (findTop exS [exT])).length + 2 ≤ g →
           additionalDepsFuel g exS [exT] = some A)
      ∧ (A.map PrjInfo.name).Nodup
      ∧ (∀ prj, prj ∈ A ↔
           (getProjectInfo (findTop exS [exT]) prj.name = some prj
            ∧ ReachFrom (findTop exS [exT]) ((allProjects exS).map PrjInfo.name) prj.name
            ∧ prj.name ∉ (allProjects exS).map PrjInfo.name)) :=
  C1_additional_deps_closure exS [exT]
    ⟨by simp [exT, Solution.subsolutions], trivial⟩
    (by unfold depsResolvable; decide)
    (by unfold namesNodup; decide)

/-- C10: a solution with no parent (the top-most ancestor of its tree)
gets no additional dependencies at all, whatever its projects
declare. -/
theorem C10_top_level_no_additional_deps (s : Solution) :
    additional_deps s [] = some [] := by
  simp [additional_deps, additionalDepsFuel]

/-! ## Commit (vs2010.py) -/

/-- The fixpoint loop exits immediately when the counter equals the
size of `included`. -/
theorem closureLoop_exit (top : Solution) (fuel : Nat) (pc : Nat)
    (I T : List String) (A : List PrjInfo) (h : pc = I.length) :
    closureLoop top (fuel + 1) pc I T A = some A := by
  rw [closureLoop, if_pos h]

/-- A solution with no projects anywhere in its tree has no additional
dependencies. -/
theorem additional_deps_of_no_projects (s : Solution) (parents : List Solution)
    (h : allProjects s = []) : additional_deps s parents = some [] := by
  cases parents with
  | nil => simp [additional_deps, additionalDepsFuel]
  | cons p rest =>
    simp only [additional_deps, additionalDepsFuel, List.isEmpty_cons,
      Bool.false_eq_true, if_false, h]
    exact closureLoop_exit _ _ _ _ _ _ (by simp [setOfList, setUnion])

/-- C3: committing a solution whose whole-tree project list (additional
dependencies included) is empty writes no artifact: `commit` returns
before producing the solution file. -/
theorem C3_empty_commit_skipped (s : Solution) (parents : List Solution)
    (adtl : List PrjInfo)
    (ha : additional_deps s parents = some adtl)
    (hempty : allProjects s ++ adtl = []) :
    commit s parents = .skipped := by
  have h1 : allProjects s = [] := (List.append_eq_nil.mp hempty).1
  have h2 : adtl = [] := (List.append_eq_nil.mp hempty).2
  simp [commit, ha, h1, h2, writeProjects]

/-- Witness for C3: a module with zero targets produces no solution
file. -/
theorem C3_empty_commit_skipped_witness : commit exEmpty [] = .skipped :=
  C3_empty_commit_skipped exEmpty [] [] rfl rfl

/-- Decomposition of a successfully committed solution into its
sections. -/
theorem commit_written_inv (s : Solution) (parents : List Solution)
    (adtl : List PrjInfo) (lines : List SlnLine)
    (ha : additional_deps s parents = some adtl)
    (hw : commit s parents = .written lines) :
    ∃ prjLines, writeProjects s parents (allProjects s ++ adtl) = some prjLines
      ∧ lines = headerLines ++ prjLines ++ folderLines (commitFolders s adtl)
          ++ globalLines ((allProjects s ++ adtl).map PrjInfo.guid)
          ++ nestingLines (commitFolders s adtl) ++ [.endGlobal] := by
  simp only [commit, ha] at hw
  cases hwp : writeProjects s parents (allProjects s ++ adtl) with
  | none =>
    simp only [hwp] at hw
    cases hw
  | some prjLines =>
    simp only [hwp] at hw
    by_cases hg : ((allProjects s ++ adtl).map PrjInfo.guid).isEmpty = true
    · rw [if_pos hg] at hw
      simp at hw
    · rw [if_neg hg] at hw
      injection hw with h'
      exact ⟨prjLines, rfl, h'.symm⟩

/-- The project section contains no folder entry. -/
theorem writeProjectEntry_no_folderEntry (s : Solution) (parents : List Solution)
    (p : PrjInfo) (ls : List SlnLine)
    (h : writeProjectEntry s parents p = some ls) :
    ∀ n g, SlnLine.folderEntry n g ∉ ls := by
  intro n g hmem
  unfold writeProjectEntry at h
  by_cases hd : p.deps.isEmpty = true
  · rw [if_pos hd] at h
    injection h with h'
    rw [← h'] at hmem
    simp at hmem
  · rw [if_neg hd] at h
    cases hm : p.deps.mapM (getTargetGuid s parents) with
    | none => rw [hm] at h; cases h
    | some gs =>
      rw [hm] at h
      injection h with h'
      rw [← h'] at hmem
      simp at hmem

theorem writeProjects_no_folderEntry (s : Solution) (parents : List Solution) :
    ∀ (l : List PrjInfo) (ls : List SlnLine),
    writeProjects s parents l = some ls →
    ∀ n g, SlnLine.folderEntry n g ∉ ls := by
  intro l
  induction l with
  | nil =>
    intro ls h n g hmem
    simp only [writeProjects] at h
    rw [← Option.some_inj.mp h] at hmem
    simp at hmem
  | cons p rest ih =>
    intro ls h n g hmem
    rw [writeProjects] at h
    cases he : writeProjectEntry s parents p with
    | none => rw [he] at h; cases h
    | some ls₁ =>
      rw [he] at h
      cases hr : writeProjects s parents rest with
      | none => rw [hr] at h; cases h
      | some ls₂ =>
        rw [hr] at h
        injection h with h'
        rw [← h'] at hmem
        rcases List.mem_append.mp hmem with h1 | h2
        · exact writeProjectEntry_no_folderEntry s parents p ls₁ he n g h1
        · exact ih ls₂ hr n g h2

theorem folderEntry_not_mem_headerLines (n g : String) :
    SlnLine.folderEntry n g ∉ headerLines := by
  simp [headerLines]

theorem folderEntry_not_mem_globalLines (n g : String) (guids : List String) :
    SlnLine.folderEntry n g ∉ globalLines guids := by
  simp [globalLines]

theorem folderEntry_not_mem_nestingLines (n g : String) (folders : List Folder) :
    SlnLine.folderEntry n g ∉ nestingLines folders := by
  unfold nestingLines
  by_cases hf : folders.isEmpty = true
  · rw [if_pos hf]
    simp
  · rw [if_neg hf]
    simp

/-- A folder entry appears in the folder section exactly for the
non-omitted folders. -/
theorem mem_folderLines_iff (folders : List Folder) (n g : String) :
    SlnLine.folderEntry n g ∈ folderLines folders
      ↔ ∃ f ∈ folders, folderOmit f = false ∧ f.name = n ∧ f.guid = g := by
  unfold folderLines
  simp only [List.mem_flatMap, List.mem_filter, List.mem_cons,
    List.mem_singleton]
  constructor
  · rintro ⟨f, ⟨hf, homit⟩, h1 | h2 | h3⟩
    · injection h1 with hn hg
      exact ⟨f, hf, by simpa using homit, hn.symm, hg.symm⟩
    · cases h2
    · simp at h3
  · rintro ⟨f, hf, homit, hn, hg⟩
    exact ⟨f, ⟨hf, by simp [homit]⟩, Or.inl (by rw [hn, hg])⟩

/-- The projects of every folder (omitted or not) get a nesting entry
with the GUID `commit` selects for them. -/
theorem mem_nestingLines_projects (folders : List Folder) (f : Folder)
    (hf : f ∈ folders) (p : PrjInfo) (hp : p ∈ f.projects) :
    SlnLine.nestedEntry p.guid
        (if folderOmit f then f.parentGuid.getD "" else f.guid)
      ∈ nestingLines folders := by
  unfold nestingLines
  rw [if_neg (by simp [List.isEmpty_eq_false.mpr (List.ne_nil_of_mem hf)])]
  refine List.mem_append_left _ (List.mem_append_right _ ?_)
  exact List.mem_flatMap.mpr
    ⟨f, hf, List.mem_append_left _ (List.mem_map.mpr ⟨p, hp, rfl⟩)⟩

/-- The subsolutions of every folder (omitted or not) get a nesting
entry pointing at the folder's own GUID. -/
theorem mem_nestingLines_subGuids (folders : List Folder) (f : Folder)
    (hf : f ∈ folders) (sg : String) (hsg : sg ∈ f.subGuids) :
    SlnLine.nestedEntry sg f.guid ∈ nestingLines folders := by
  unfold nestingLines
  rw [if_neg (by simp [List.isEmpty_eq_false.mpr (List.ne_nil_of_mem hf)])]
  refine List.mem_append_left _ (List.mem_append_right _ ?_)
  exact List.mem_flatMap.mpr
    ⟨f, hf, List.mem_append_right _ (List.mem_map.mpr ⟨sg, hsg, rfl⟩)⟩

/-- C2 (amended): during solution commit, a nested subsolution grouping
with one or fewer total items is folded away — no folder entry is
written for it (given that no surviving folder shares its name and
GUID) and its projects attach to its parent grouping's GUID — but its
sub-groupings still attach to the folded grouping's own GUID, and the
synthetic "Additional Dependencies" grouping, having no parent, is
never folded: it appears as a distinct entry whenever additional
dependencies exist. -/
theorem C2_fold_rule (s : Solution) (parents : List Solution)
    (adtl : List PrjInfo) (lines : List SlnLine)
    (ha : additional_deps s parents = some adtl)
    (hw : commit s parents = .written lines) :
    (∀ f ∈ slnFoldersOf s, folderOmit f = true →
       ((∀ f2 ∈ commitFolders s adtl, folderOmit f2 = false →
           ¬(f2.name = f.name ∧ f2.guid = f.guid)) →
         SlnLine.folderEntry f.name f.guid ∉ lines)
       ∧ (∀ pg, f.parentGuid = some pg →
           ∀ p ∈ f.projects, SlnLine.nestedEntry p.guid pg ∈ lines))
    ∧ (∀ f ∈ commitFolders s adtl, ∀ sg ∈ f.subGuids,
        SlnLine.nestedEntry sg f.guid ∈ lines)
    ∧ (adtl ≠ [] →
        folderOmit (extrasFolder s adtl) = false
        ∧ SlnLine.folderEntry "Additional Dependencies"
            (GUID NAMESPACE_INTERNAL s.name "Additional Dependencies") ∈ lines) := by
  rcases commit_written_inv s parents adtl lines ha hw with ⟨prjLines, hwp, hlines⟩
  have hmemNesting : ∀ x ∈ nestingLines (commitFolders s adtl), x ∈ lines := by
    intro x hx
    rw [hlines]
    exact List.mem_append_left _ (List.mem_append_right _ hx)
  have hmemFolder : ∀ x ∈ folderLines (commitFolders s adtl), x ∈ lines := by
    intro x hx
    rw [hlines]
    exact List.mem_append_left _ (List.mem_append_left _
      (List.mem_append_left _ (List.mem_append_right _ hx)))
  refine ⟨?_, ?_, ?_⟩
  · intro f hf homit
    constructor
    · intro huniq hmem
      rw [hlines] at hmem
      rcases List.mem_append.mp hmem with h1 | h2
      · rcases List.mem_append.mp h1 with h3 | h4
        · rcases List.mem_append.mp h3 with h5 | h6
          · rcases List.mem_append.mp h5 with h7 | h8
            · rcases List.mem_append.mp h7 with h9 | h10
              · exact folderEntry_not_mem_headerLines _ _ h9
              · exact writeProjects_no_folderEntry s parents _ _ hwp _ _ h10
            · rcases (mem_folderLines_iff _ _ _).mp h8 with ⟨f2, hf2, homit2, hn2, hg2⟩
              exact huniq f2 hf2 homit2 ⟨hn2, hg2⟩
          · exact folderEntry_not_mem_globalLines _ _ _ h6
        · exact folderEntry_not_mem_nestingLines _ _ _ h4
      · simp at h2
    · intro pg hpg p hp
      have hmem := mem_nestingLines_projects (commitFolders s adtl) f
        (List.mem_append_left _ hf) p hp
      rw [if_pos homit, hpg] at hmem
      exact hmemNesting _ hmem
  · intro f hf sg hsg
    exact hmemNesting _ (mem_nestingLines_subGuids _ f hf sg hsg)
  · intro hne
    have homit : folderOmit (extrasFolder s adtl) = false := by
      simp [folderOmit, extrasFolder]
    refine ⟨homit, ?_⟩
    have hfmem : extrasFolder s adtl ∈ commitFolders s adtl := by
      unfold commitFolders
      rw [if_neg (by simpa [List.isEmpty_iff] using hne)]
      exact List.mem_append_right _ (by simp)
    exact hmemFolder _ ((mem_folderLines_iff _ _ _).mpr
      ⟨extrasFolder s adtl, hfmem, homit, rfl, rfl⟩)

/-- Counterexample to C2 as stated: in the committed output of `exS`,
the synthetic "Additional Dependencies" grouping holds exactly one item
yet still appears as a distinct nesting entry, and the folded grouping
G's sub-grouping K attaches to G's own GUID, not to G's parent's
GUID. -/
theorem C2_fold_rule_counterexample :
    ((extrasFolder exS [exY]).projects.length
        + (extrasFolder exS [exY]).subGuids.length ≤ 1
      ∧ SlnLine.folderEntry "Additional Dependencies"
          (GUID NAMESPACE_INTERNAL "S" "Additional Dependencies")
          ∈ commitLines (commit exS [exT]))
    ∧ (folderOmit (folderOfSolution exG "GS") = true
      ∧ SlnLine.nestedEntry "GK" "GG" ∈ commitLines (commit exS [exT])
      ∧ SlnLine.nestedEntry "GK" "GS" ∉ commitLines (commit exS [exT])) := by
  decide

/-- Witness for the amended C2 at the concrete tree: the folded
grouping G gets no folder entry, its sub-grouping K attaches to G's
GUID, and the one-item synthetic grouping still gets a folder entry. -/
theorem C2_fold_rule_witness :
    SlnLine.folderEntry "G" "GG" ∉ commitLines (commit exS [exT])
    ∧ SlnLine.nestedEntry "GK" "GG" ∈ commitLines (commit exS [exT])
    ∧ SlnLine.folderEntry "Additional Dependencies"
        (GUID NAMESPACE_INTERNAL exS.name "Additional Dependencies")
        ∈ commitLines (commit exS [exT]) := by
  have h := C2_fold_rule exS [exT] [exY] (commitLines (commit exS [exT])) rfl rfl
  exact ⟨(h.1 (folderOfSolution exG "GS") (by decide) (by decide)).1 (by decide),
    h.2.1 (folderOfSolution exG "GS") (by decide) "GK" (by decide),
    (h.2.2 (by decide)).2⟩

end Bakefile
